import Mathlib

/-!
Verification of the stippling core (`stipple/blue_noise.py` and
`stipple/importance.py`) of the stippleChallenge repository.

The embedding works over exact rationals. Floating-point positive infinity
(the sentinel value stored into chosen energy cells) is modelled by `⊤` in
`WithTop ℚ`, whose addition (`⊤ + x = ⊤`) and linear order (`x < ⊤` for
finite `x`) agree with IEEE infinity on the values the algorithm produces.
The real exponential is an abstract parameter `gexp`, and the seeded numpy
noise source is an explicit stream parameter; every claim below is proved
for all values of these parameters, or for a concrete instance where a
counterexample is required.
-/

namespace Stipple

/-- Grid of values indexed by (row, column); indices below the given height
and width are the meaningful ones. -/
abbrev Grid (α : Type) := ℕ → ℕ → α

/-- Python `int()` applied to a rational: truncation toward zero, realized
as truncated division of the numerator by the denominator. -/
def pyInt (q : ℚ) : ℤ := q.num.tdiv q.den

/-- Row-major list of all (row, column) index pairs of an H×W grid, the
iteration order of `np.argmin` over a flattened array. -/
def allPairs (H W : ℕ) : List (ℕ × ℕ) :=
  (List.range H).flatMap fun r => (List.range W).map fun c => (r, c)

/-- First (row-major) location attaining the minimum value of `g` over the
given index list, as `np.unravel_index(np.argmin(...))` computes it; `none`
on an empty list (where `np.argmin` raises `ValueError`). -/
def argminList (g : Grid (WithTop ℚ)) : List (ℕ × ℕ) → Option (ℕ × ℕ)
  | [] => none
  | p :: ps =>
      some (ps.foldl (fun best q => if g q.1 q.2 < g best.1 best.2 then q else best) p)

/-- Index pairs of the first-point search window of `void_and_cluster`
(lines 112–118 of blue_noise.py): a square window of half-width
`min(H, W) // 4` centered on `(H // 2, W // 2)`, clipped to the grid.
Natural-number subtraction realizes the `max(0, ...)` clamp of the source. -/
def windowPairs (H W : ℕ) : List (ℕ × ℕ) :=
  let cy := H / 2
  let cx := W / 2
  let sr := min H W / 4
  let ymin := cy - sr
  let ymax := min H (cy + sr)
  let xmin := cx - sr
  let xmax := min W (cx + sr)
  (List.range' ymin (ymax - ymin)).flatMap fun y =>
    (List.range' xmin (xmax - xmin)).map fun x => (y, x)

/-- The function `toroidal_gaussian_kernel(size, sigma, normalize)` of
blue_noise.py: bump an even `size` to the next odd value, then build the
grid of Gaussian values `exp(-0.5 * (distance / sigma) ** 2)` where
`distance` is the Euclidean distance from the center cell; since the
distance is squared again immediately, the value is computed here as
`gexp (-(1/2) * (dy² + dx²) / σ²)` with `gexp` standing for the real
exponential. Returns the final side length together with the entry grid. -/
def toroidal_gaussian_kernel (size : ℤ) (sigma : ℚ) (gexp : ℚ → ℚ)
    (normalize : Bool) : ℤ × Grid ℚ :=
  let s := if size % 2 = 0 then size + 1 else size
  let center : ℤ := s / 2
  let base : Grid ℚ := fun a b =>
    gexp (-(1 / 2) * ((((a : ℚ) - (center : ℚ)) ^ 2 +
      ((b : ℚ) - (center : ℚ)) ^ 2) / sigma ^ 2))
  if normalize then
    let ksum := ((allPairs s.toNat s.toNat).map fun p => base p.1 p.2).sum
    (s, fun a b => base a b / ksum)
  else
    (s, base)

/-- Kernel size chosen by `void_and_cluster` before calling
`toroidal_gaussian_kernel` (lines 91–93): `int(6 * sigma) + 1`, bumped to
the next integer when even. -/
def kernelSizeInit (sigma : ℚ) : ℤ :=
  let k := pyInt (6 * sigma) + 1
  if k % 2 = 0 then k + 1 else k

/-- Side length of the repulsion kernel actually built by
`void_and_cluster`: the size returned by `toroidal_gaussian_kernel` on
`kernelSizeInit sigma`. -/
def repulsionKernelSize (sigma : ℚ) (gexp : ℚ → ℚ) : ℤ :=
  (toroidal_gaussian_kernel (kernelSizeInit sigma) sigma gexp false).1

/-- Entry grid of the repulsion kernel of `void_and_cluster` (lines 94–97):
the unnormalized Gaussian kernel scaled by `sigma ** 2`. -/
def repulsionKernel (sigma : ℚ) (gexp : ℚ → ℚ) : Grid ℚ :=
  fun a b =>
    (toroidal_gaussian_kernel (kernelSizeInit sigma) sigma gexp false).2 a b * sigma ^ 2

/-- Toroidal wraparound target of kernel cell `p` when a kernel of side
`ksize` is accumulated at center `(y, x)` on an H×W grid (lines 143–151):
offsets are measured from the kernel center `ksize / 2`, and each axis
wraps by the Python modulo, which is nonnegative like `Int.emod`. -/
def wrapTarget (H W : ℕ) (y x : ℕ) (ksize : ℕ) (p : ℕ × ℕ) : ℕ × ℕ :=
  let dy : ℤ := (p.1 : ℤ) - (ksize / 2 : ℕ)
  let dx : ℤ := (p.2 : ℤ) - (ksize / 2 : ℕ)
  ((((y : ℤ) + dy) % (H : ℤ)).toNat, (((x : ℤ) + dx) % (W : ℤ)).toNat)

/-- Kernel accumulation loop of `void_and_cluster` (lines 143–154): for
every kernel cell in row-major order, add its kernel value to the energy
cell at the toroidally wrapped target location. -/
def accumulate (H W : ℕ) (energy : Grid (WithTop ℚ)) (y x : ℕ) (ksize : ℕ)
    (K : Grid ℚ) : Grid (WithTop ℚ) :=
  (allPairs ksize ksize).foldl
    (fun e p =>
      let t := wrapTarget H W y x ksize p
      fun r c =>
        if r = t.1 ∧ c = t.2 then e r c + ((K p.1 p.2 : ℚ) : WithTop ℚ) else e r c)
    energy

/-- Loop state of `void_and_cluster`: the energy grid (with `⊤` as the
sentinel for already chosen cells), the stipple grid, and the ordered
sample list. -/
structure VCState where
  energy : Grid (WithTop ℚ)
  stipple : Grid ℚ
  samples : List (ℕ × ℕ × ℚ)

/-- State before the first iteration (lines 87 and 104): energy is
`-importance * content_bias`, the stipple grid is all background (1.0) and
no samples are recorded. -/
def initState (importance : Grid ℚ) (content_bias : ℚ) : VCState where
  energy := fun r c => ((-(importance r c) * content_bias : ℚ) : WithTop ℚ)
  stipple := fun _ _ => 1
  samples := []

/-- Location selection of iteration `i` (lines 109–128): iteration 0 takes
the row-major argmin over the centered search window; later iterations add
the annealed noise `noise i * noise_scale_factor * (1 - i / N)` to a copy
of the energy grid and take the row-major argmin over the whole grid. -/
def selectIndex (H W : ℕ) (noise_scale_factor : ℚ) (noise : ℕ → Grid ℚ)
    (N : ℕ) (i : ℕ) (energy : Grid (WithTop ℚ)) : Option (ℕ × ℕ) :=
  if i = 0 then
    argminList energy (windowPairs H W)
  else
    argminList
      (fun r c =>
        energy r c +
          ((noise i r c * noise_scale_factor * (1 - (i : ℚ) / (N : ℚ)) : ℚ) : WithTop ℚ))
      (allPairs H W)

/-- Body of one loop iteration (lines 107–157): select the location, record
the sample with its importance value, mark the stipple cell 0.0, accumulate
the repulsion kernel at the location, and set the location energy to the
infinity sentinel. `none` models the `ValueError` of `np.argmin` on an
empty search window. -/
def vcStep (H W : ℕ) (importance : Grid ℚ) (noise_scale_factor : ℚ)
    (noise : ℕ → Grid ℚ) (ksize : ℕ) (K : Grid ℚ) (N : ℕ) (i : ℕ)
    (st : VCState) : Option VCState :=
  match selectIndex H W noise_scale_factor noise N i st.energy with
  | none => none
  | some (y, x) =>
      some
        { energy := fun r c =>
            if r = y ∧ c = x then ⊤ else accumulate H W st.energy y x ksize K r c
          stipple := fun r c => if r = y ∧ c = x then 0 else st.stipple r c
          samples := st.samples ++ [(y, x, importance y x)] }

/-- Number of loop iterations (line 84): `int(H * W * percentage)`. -/
def numPoints (H W : ℕ) (percentage : ℚ) : ℤ :=
  pyInt ((H : ℚ) * (W : ℚ) * percentage)

/-- State after the first `k` iterations of the placement loop of
`void_and_cluster`; `none` once any iteration has failed. -/
def vcPartial (H W : ℕ) (importance : Grid ℚ)
    (percentage sigma content_bias noise_scale_factor : ℚ) (gexp : ℚ → ℚ)
    (noise : ℕ → Grid ℚ) (k : ℕ) : Option VCState :=
  let N := (numPoints H W percentage).toNat
  let ksize := (repulsionKernelSize sigma gexp).toNat
  let K := repulsionKernel sigma gexp
  (List.range k).foldl
    (fun ost i => ost.bind (vcStep H W importance noise_scale_factor noise ksize K N i))
    (some (initState importance content_bias))

/-- The function `void_and_cluster` of blue_noise.py: run the placement
loop for `int(H * W * percentage)` iterations (an empty range when that
value is nonpositive) and return the stipple grid together with the ordered
sample list. -/
def void_and_cluster (H W : ℕ) (importance : Grid ℚ)
    (percentage sigma content_bias noise_scale_factor : ℚ) (gexp : ℚ → ℚ)
    (noise : ℕ → Grid ℚ) : Option (Grid ℚ × List (ℕ × ℕ × ℚ)) :=
  (vcPartial H W importance percentage sigma content_bias noise_scale_factor gexp
      noise (numPoints H W percentage).toNat).map
    fun st => (st.stipple, st.samples)

/-- Modelled from the spec: the seeded noise source (the process-global
numpy generator, seeded once by `np.random.seed(seed)` on line 81 and then
drawn from by `np.random.randn(H, W)` once per iteration) is a
deterministic stream of values determined entirely by the seed. The
concrete mixing function below is an arbitrary deterministic stand-in with
exactly that property. -/
def noiseFromSeed (seed : ℕ) : ℕ → Grid ℚ :=
  fun i r c => (((seed + 31 * i + 17 * r + 13 * c) % 101 : ℕ) : ℚ) / 50 - 1

/-- Minimum entry of a nonempty H×W grid, as `np.ndarray.min` computes it;
the empty case (where numpy raises) is given an arbitrary value. -/
def gridMin (H W : ℕ) (g : Grid ℚ) : ℚ :=
  match allPairs H W with
  | [] => 0
  | p :: ps => ps.foldl (fun m q => min m (g q.1 q.2)) (g p.1 p.2)

/-- Maximum entry of a nonempty H×W grid, as `np.ndarray.max` computes it. -/
def gridMax (H W : ℕ) (g : Grid ℚ) : ℚ :=
  match allPairs H W with
  | [] => 0
  | p :: ps => ps.foldl (fun m q => max m (g q.1 q.2)) (g p.1 p.2)

/-- Pointwise pre-normalization importance of `compute_importance`
(importance.py lines 41–71): invert brightness, downweight the dark and
light tails with one-sided Gaussian falloffs combined by pointwise minimum,
and apply the mid-tone Gaussian boost. `gexp` stands for `np.exp`. -/
def preImportance (gexp : ℚ → ℚ) (extreme_downweight dark_threshold
    light_threshold dark_sigma light_sigma mid_tone_center mid_tone_sigma
    mid_tone_boost : ℚ) (v : ℚ) : ℚ :=
  let inverted := 1 - v
  let dark_distances := max 0 (dark_threshold - v) / dark_sigma
  let dark_weights0 :=
    extreme_downweight + (1 - extreme_downweight) * gexp (-(1 / 2) * dark_distances ^ 2)
  let dark_weights := if dark_threshold ≤ v then 1 else dark_weights0
  let light_distances := max 0 (v - light_threshold) / light_sigma
  let light_weights0 :=
    extreme_downweight + (1 - extreme_downweight) * gexp (-(1 / 2) * light_distances ^ 2)
  let light_weights := if v ≤ light_threshold then 1 else light_weights0
  let extreme_weights := min dark_weights light_weights
  let importance0 := inverted * extreme_weights
  let mid_tone_gaussian :=
    gexp (-(1 / 2) * ((v - mid_tone_center) / mid_tone_sigma) ^ 2)
  importance0 * (1 + (mid_tone_boost - 1) * mid_tone_gaussian)

/-- Pre-normalization importance grid of `compute_importance`: the
pointwise transform applied to every cell of the input grid. -/
def preGrid (gexp : ℚ → ℚ) (image : Grid ℚ)
    (extreme_downweight dark_threshold light_threshold dark_sigma light_sigma
    mid_tone_center mid_tone_sigma mid_tone_boost : ℚ) : Grid ℚ :=
  fun r c =>
    preImportance gexp extreme_downweight dark_threshold light_threshold
      dark_sigma light_sigma mid_tone_center mid_tone_sigma mid_tone_boost
      (image r c)

/-- The function `compute_importance` of importance.py: the pointwise
transform followed by min/max normalization to [0, 1], falling back to the
all-ones grid when the maximum does not exceed the minimum (lines 73–79). -/
def compute_importance (H W : ℕ) (gexp : ℚ → ℚ) (image : Grid ℚ)
    (extreme_downweight dark_threshold light_threshold dark_sigma light_sigma
    mid_tone_center mid_tone_sigma mid_tone_boost : ℚ) : Grid ℚ :=
  let pre : Grid ℚ :=
    preGrid gexp image extreme_downweight dark_threshold light_threshold
      dark_sigma light_sigma mid_tone_center mid_tone_sigma mid_tone_boost
  let importance_min := gridMin H W pre
  let importance_max := gridMax H W pre
  if importance_min < importance_max then
    fun r c => (pre r c - importance_min) / (importance_max - importance_min)
  else
    fun _ _ => 1

/-- Locations (row, column) of a sample list, in placement order. -/
def locs (samples : List (ℕ × ℕ × ℚ)) : List (ℕ × ℕ) :=
  samples.map fun t => (t.1, t.2.1)

/-- Wording of the specification for the kernel contract: `n` is the
smallest odd integer at least `q`. -/
def IsLeastOddGE (q : ℚ) (n : ℤ) : Prop :=
  Odd n ∧ q ≤ (n : ℚ) ∧ ∀ m : ℤ, Odd m → q ≤ (m : ℚ) → n ≤ m

/-! ### Basic facts about the index lists -/

theorem mem_allPairs {H W : ℕ} {p : ℕ × ℕ} :
    p ∈ allPairs H W ↔ p.1 < H ∧ p.2 < W := by
  cases p with
  | mk r c =>
    simp only [allPairs, List.mem_flatMap, List.mem_map, List.mem_range, Prod.mk.injEq]
    constructor
    · rintro ⟨a, ha, b, hb, hr, hc⟩
      exact ⟨hr ▸ ha, hc ▸ hb⟩
    · rintro ⟨hr, hc⟩
      exact ⟨r, hr, c, hc, rfl, rfl⟩

theorem nodup_allPairs (H W : ℕ) : (allPairs H W).Nodup :=
  List.nodup_flatMap.2
    ⟨fun _ _ => (List.nodup_range W).map fun _ _ h => by injection h,
      (List.nodup_range H).imp fun {a₁ a₂} n => by
        intro x h₁ h₂
        rcases List.mem_map.1 h₁ with ⟨b₁, _, rfl⟩
        rcases List.mem_map.1 h₂ with ⟨b₂, _, hx⟩
        injection hx.symm with k1 k2
        exact n k1⟩

theorem length_allPairs (H W : ℕ) : (allPairs H W).length = H * W := by
  simp only [allPairs, List.length_flatMap, Function.comp_def, List.length_map,
    List.length_range]
  induction H with
  | zero => simp
  | succ n ih => rw [List.range_succ]; simp [ih, Nat.succ_mul]

theorem windowPairs_eq (H W : ℕ) :
    windowPairs H W =
      (List.range' (H / 2 - min H W / 4)
          (min H (H / 2 + min H W / 4) - (H / 2 - min H W / 4))).flatMap
        fun y =>
          (List.range' (W / 2 - min H W / 4)
              (min W (W / 2 + min H W / 4) - (W / 2 - min H W / 4))).map
            fun x => (y, x) := rfl

theorem mem_windowPairs {H W : ℕ} {p : ℕ × ℕ} (h : p ∈ windowPairs H W) :
    p.1 < H ∧ p.2 < W := by
  rw [windowPairs_eq] at h
  simp only [List.mem_flatMap, List.mem_map, List.mem_range'_1] at h
  obtain ⟨y, ⟨hy1, hy2⟩, x, ⟨hx1, hx2⟩, hp⟩ := h
  subst hp
  have h1 : min H (H / 2 + min H W / 4) ≤ H := min_le_left _ _
  have h2 : min W (W / 2 + min H W / 4) ≤ W := min_le_left _ _
  exact ⟨by omega, by omega⟩

theorem windowPairs_eq_nil {H W : ℕ} (h : min H W ≤ 3) : windowPairs H W = [] := by
  rw [windowPairs_eq]
  have h4 : min H W / 4 = 0 := Nat.div_eq_of_lt (by omega)
  have h5 : min H (H / 2 + min H W / 4) ≤ H / 2 + min H W / 4 := min_le_right _ _
  have hy : min H (H / 2 + min H W / 4) - (H / 2 - min H W / 4) = 0 := by omega
  rw [hy]
  rfl

theorem center_mem_windowPairs {H W : ℕ} (h : 4 ≤ min H W) :
    (H / 2, W / 2) ∈ windowPairs H W := by
  rw [windowPairs_eq]
  simp only [List.mem_flatMap, List.mem_map, List.mem_range'_1]
  have hH : 4 ≤ H := le_trans h (min_le_left _ _)
  have hW : 4 ≤ W := le_trans h (min_le_right _ _)
  have h1 : H / 2 < H := Nat.div_lt_self (by omega) (by omega)
  have h2 : W / 2 < W := Nat.div_lt_self (by omega) (by omega)
  refine ⟨H / 2, ⟨by omega, ?_⟩, W / 2, ⟨by omega, ?_⟩, rfl⟩
  · have h3 : H / 2 < min H (H / 2 + min H W / 4) :=
      lt_min h1 (by omega)
    omega
  · have h3 : W / 2 < min W (W / 2 + min H W / 4) :=
      lt_min h2 (by omega)
    omega

/-! ### Facts about the row-major argmin -/

theorem argminFold_cases (g : Grid (WithTop ℚ)) :
    ∀ (ps : List (ℕ × ℕ)) (p : ℕ × ℕ),
      (ps.foldl (fun best q => if g q.1 q.2 < g best.1 best.2 then q else best) p) = p ∨
      (ps.foldl (fun best q => if g q.1 q.2 < g best.1 best.2 then q else best) p) ∈ ps := by
  intro ps
  induction ps with
  | nil => intro p; left; rfl
  | cons a l ih =>
    intro p
    simp only [List.foldl_cons]
    rcases ih (if g a.1 a.2 < g p.1 p.2 then a else p) with h | h
    · rw [h]
      split
      · right; exact List.mem_cons_self _ _
      · left; rfl
    · right; exact List.mem_cons_of_mem _ h

theorem argminFold_le (g : Grid (WithTop ℚ)) :
    ∀ (ps : List (ℕ × ℕ)) (p q : ℕ × ℕ), (q = p ∨ q ∈ ps) →
      g (ps.foldl (fun best q => if g q.1 q.2 < g best.1 best.2 then q else best) p).1
        (ps.foldl (fun best q => if g q.1 q.2 < g best.1 best.2 then q else best) p).2 ≤
        g q.1 q.2 := by
  intro ps
  induction ps with
  | nil =>
    rintro p q (rfl | h)
    · exact le_rfl
    · exact absurd h (List.not_mem_nil _)
  | cons a l ih =>
    intro p q hq
    rcases hq with h0 | h0
    · subst h0
      simp only [List.foldl_cons]
      by_cases hc : g a.1 a.2 < g q.1 q.2
      · rw [if_pos hc]
        exact le_trans (ih a a (Or.inl rfl)) (le_of_lt hc)
      · rw [if_neg hc]
        exact ih q q (Or.inl rfl)
    · rcases List.mem_cons.mp h0 with h1 | h1
      · subst h1
        simp only [List.foldl_cons]
        by_cases hc : g q.1 q.2 < g p.1 p.2
        · rw [if_pos hc]
          exact ih q q (Or.inl rfl)
        · rw [if_neg hc]
          exact le_trans (ih p p (Or.inl rfl)) (not_lt.mp hc)
      · simp only [List.foldl_cons]
        exact ih _ q (Or.inr h1)

theorem argminList_mem {g : Grid (WithTop ℚ)} {l : List (ℕ × ℕ)} {q : ℕ × ℕ}
    (h : argminList g l = some q) : q ∈ l := by
  cases l with
  | nil => exact absurd h (by simp [argminList])
  | cons p ps =>
    simp only [argminList, Option.some.injEq] at h
    rcases argminFold_cases g ps p with h2 | h2
    · rw [← h, h2]; exact List.mem_cons_self _ _
    · rw [← h]; exact List.mem_cons_of_mem _ h2

theorem argminList_le {g : Grid (WithTop ℚ)} {l : List (ℕ × ℕ)} {q : ℕ × ℕ}
    (h : argminList g l = some q) : ∀ p ∈ l, g q.1 q.2 ≤ g p.1 p.2 := by
  cases l with
  | nil => exact absurd h (by simp [argminList])
  | cons a ps =>
    simp only [argminList, Option.some.injEq] at h
    intro p hp
    rcases List.mem_cons.mp hp with h1 | h1
    · rw [← h, h1]; exact argminFold_le g ps a a (Or.inl rfl)
    · rw [← h]; exact argminFold_le g ps a p (Or.inr h1)

theorem argminList_isSome {g : Grid (WithTop ℚ)} {l : List (ℕ × ℕ)} (h : l ≠ []) :
    (argminList g l).isSome := by
  cases l with
  | nil => exact absurd rfl h
  | cons p ps => rfl

/-! ### Closed form of the kernel accumulation -/

theorem accumulateFold_apply (H W : ℕ) (y x ksize : ℕ) (K : Grid ℚ) :
    ∀ (l : List (ℕ × ℕ)) (e : Grid (WithTop ℚ)) (r c : ℕ),
      (l.foldl
        (fun e p =>
          let t := wrapTarget H W y x ksize p
          fun r c =>
            if r = t.1 ∧ c = t.2 then e r c + ((K p.1 p.2 : ℚ) : WithTop ℚ) else e r c)
        e) r c =
      e r c + ((((l.filter fun p => wrapTarget H W y x ksize p = (r, c)).map
          fun p => K p.1 p.2).sum : ℚ) : WithTop ℚ) := by
  intro l
  induction l with
  | nil =>
    intro e r c
    simp
  | cons a l ih =>
    intro e r c
    simp only [List.foldl_cons, List.filter_cons]
    rw [ih]
    by_cases ht : wrapTarget H W y x ksize a = (r, c)
    · rw [if_pos (decide_eq_true ht)]
      have h1 : r = (wrapTarget H W y x ksize a).1 ∧ c = (wrapTarget H W y x ksize a).2 := by
        rw [ht]
        exact ⟨rfl, rfl⟩
      show (if r = (wrapTarget H W y x ksize a).1 ∧ c = (wrapTarget H W y x ksize a).2 then
          e r c + ((K a.1 a.2 : ℚ) : WithTop ℚ) else e r c) +
          ((((l.filter fun p => wrapTarget H W y x ksize p = (r, c)).map
            fun p => K p.1 p.2).sum : ℚ) : WithTop ℚ) = _
      rw [if_pos h1, List.map_cons, List.sum_cons, WithTop.coe_add, add_assoc]
    · rw [if_neg fun hd => ht (of_decide_eq_true hd)]
      have h1 : ¬ (r = (wrapTarget H W y x ksize a).1 ∧ c = (wrapTarget H W y x ksize a).2) :=
        fun hh => ht (Prod.ext hh.1.symm hh.2.symm)
      show (if r = (wrapTarget H W y x ksize a).1 ∧ c = (wrapTarget H W y x ksize a).2 then
          e r c + ((K a.1 a.2 : ℚ) : WithTop ℚ) else e r c) +
          ((((l.filter fun p => wrapTarget H W y x ksize p = (r, c)).map
            fun p => K p.1 p.2).sum : ℚ) : WithTop ℚ) = _
      rw [if_neg h1]

theorem accumulate_apply (H W : ℕ) (energy : Grid (WithTop ℚ)) (y x ksize : ℕ)
    (K : Grid ℚ) (r c : ℕ) :
    accumulate H W energy y x ksize K r c =
      energy r c + (((((allPairs ksize ksize).filter
          fun p => wrapTarget H W y x ksize p = (r, c)).map
          fun p => K p.1 p.2).sum : ℚ) : WithTop ℚ) :=
  accumulateFold_apply H W y x ksize K (allPairs ksize ksize) energy r c

theorem accumulate_eq_top_iff (H W : ℕ) (energy : Grid (WithTop ℚ)) (y x ksize : ℕ)
    (K : Grid ℚ) (r c : ℕ) :
    accumulate H W energy y x ksize K r c = ⊤ ↔ energy r c = ⊤ := by
  rw [accumulate_apply]
  constructor
  · intro h
    rcases WithTop.add_eq_top.mp h with h1 | h1
    · exact h1
    · exact absurd h1 WithTop.coe_ne_top
  · intro h
    rw [h, top_add]

/-! ### Unfolding the placement loop -/

theorem vcPartial_zero (H W : ℕ) (imp : Grid ℚ) (p σ cb nsf : ℚ) (gexp : ℚ → ℚ)
    (noise : ℕ → Grid ℚ) :
    vcPartial H W imp p σ cb nsf gexp noise 0 = some (initState imp cb) := rfl

theorem vcPartial_succ (H W : ℕ) (imp : Grid ℚ) (p σ cb nsf : ℚ) (gexp : ℚ → ℚ)
    (noise : ℕ → Grid ℚ) (k : ℕ) :
    vcPartial H W imp p σ cb nsf gexp noise (k + 1) =
      (vcPartial H W imp p σ cb nsf gexp noise k).bind
        (vcStep H W imp nsf noise ((repulsionKernelSize σ gexp).toNat)
          (repulsionKernel σ gexp) ((numPoints H W p).toNat) k) := by
  simp only [vcPartial]
  rw [List.range_succ, List.foldl_append, List.foldl_cons, List.foldl_nil]

theorem selectIndex_lt {H W : ℕ} {nsf : ℚ} {noise : ℕ → Grid ℚ} {N i : ℕ}
    {energy : Grid (WithTop ℚ)} {y x : ℕ}
    (h : selectIndex H W nsf noise N i energy = some (y, x)) : y < H ∧ x < W := by
  by_cases hi : i = 0
  · rw [selectIndex, if_pos hi] at h
    exact mem_windowPairs (argminList_mem h)
  · rw [selectIndex, if_neg hi] at h
    exact mem_allPairs.mp (argminList_mem h)

theorem foldl_bind_none {α : Type} (f : ℕ → α → Option α) :
    ∀ l : List ℕ, l.foldl (fun ost i => ost.bind (f i)) none = none := by
  intro l
  induction l with
  | nil => rfl
  | cons a l ih => simp only [List.foldl_cons, Option.none_bind]; exact ih

/-! ### The loop invariant -/

theorem vcPartial_spec (H W : ℕ) (imp : Grid ℚ) (p σ cb nsf : ℚ) (gexp : ℚ → ℚ)
    (noise : ℕ → Grid ℚ) :
    ∀ (k : ℕ) (st : VCState),
      vcPartial H W imp p σ cb nsf gexp noise k = some st →
      st.samples.length = k ∧
      (∀ q ∈ locs st.samples, q.1 < H ∧ q.2 < W) ∧
      (∀ r c, (st.energy r c = ⊤ ↔ (r, c) ∈ locs st.samples)) ∧
      (∀ q ∈ locs st.samples, st.stipple q.1 q.2 = 0) ∧
      (∀ r c, (r, c) ∉ locs st.samples → st.stipple r c = 1) := by
  intro k
  induction k with
  | zero =>
    intro st h
    rw [vcPartial_zero] at h
    injection h with h
    subst h
    refine ⟨rfl, ?_, ?_, ?_, ?_⟩
    · intro q hq
      simp [initState, locs] at hq
    · intro r c
      simp only [initState, locs, List.map_nil, List.not_mem_nil, iff_false]
      exact WithTop.coe_ne_top
    · intro q hq
      simp [initState, locs] at hq
    · intro r c _
      rfl
  | succ k ih =>
    intro st h
    rw [vcPartial_succ] at h
    rcases Option.bind_eq_some.mp h with ⟨st', hst', hstep⟩
    obtain ⟨hlen, hrange, htop, hzero, hone⟩ := ih st' hst'
    cases hsel : selectIndex H W nsf noise ((numPoints H W p).toNat) k st'.energy with
    | none =>
      rw [vcStep, hsel] at hstep
      cases hstep
    | some yx =>
      obtain ⟨y, x⟩ := yx
      rw [vcStep, hsel] at hstep
      injection hstep with hstep
      subst hstep
      have hyx : y < H ∧ x < W := selectIndex_lt hsel
      have hloc : locs (st'.samples ++ [(y, x, imp y x)]) = locs st'.samples ++ [(y, x)] := by
        simp [locs]
      have hpair : ∀ r c : ℕ, (r = y ∧ c = x) ↔ ((r, c) : ℕ × ℕ) = (y, x) := by
        intro r c
        constructor
        · rintro ⟨h1, h2⟩
          rw [h1, h2]
        · intro hh
          injection hh with h1 h2
          exact ⟨h1, h2⟩
      refine ⟨?_, ?_, ?_, ?_, ?_⟩
      · simp [hlen]
      · intro q hq
        rw [hloc] at hq
        rcases List.mem_append.mp hq with hq | hq
        · exact hrange q hq
        · rw [List.mem_singleton.mp hq]
          exact hyx
      · intro r c
        rw [hloc]
        simp only
        by_cases hc : r = y ∧ c = x
        · rw [if_pos hc]
          constructor
          · intro _
            exact List.mem_append.mpr (Or.inr (List.mem_singleton.mpr ((hpair r c).mp hc)))
          · intro _
            rfl
        · rw [if_neg hc]
          rw [accumulate_eq_top_iff, htop]
          simp only [List.mem_append, List.mem_singleton]
          constructor
          · exact Or.inl
          · rintro (hh | hh)
            · exact hh
            · exact absurd ((hpair r c).mpr hh) hc
      · intro q hq
        rw [hloc] at hq
        simp only
        rcases List.mem_append.mp hq with hq | hq
        · by_cases hc : q.1 = y ∧ q.2 = x
          · rw [if_pos hc]
          · rw [if_neg hc]
            exact hzero q hq
        · have : q = (y, x) := List.mem_singleton.mp hq
          rw [if_pos]
          rw [this]
          exact ⟨rfl, rfl⟩
      · intro r c hq
        rw [hloc] at hq
        simp only [List.mem_append, List.mem_singleton] at hq
        push_neg at hq
        simp only
        rw [if_neg fun hc => hq.2 ((hpair r c).mp hc)]
        exact hone r c hq.1

theorem exists_unchosen {H W : ℕ} {l : List (ℕ × ℕ)} (hlen : l.length < H * W) :
    ∃ q, q ∈ allPairs H W ∧ q ∉ l := by
  by_contra hcon
  push_neg at hcon
  have hsub2 : allPairs H W ⊆ l := fun q hq => hcon q hq
  have hle := (List.subperm_of_subset (nodup_allPairs H W) hsub2).length_le
  rw [length_allPairs] at hle
  omega

theorem vcPartial_nodup (H W : ℕ) (imp : Grid ℚ) (p σ cb nsf : ℚ) (gexp : ℚ → ℚ)
    (noise : ℕ → Grid ℚ) :
    ∀ (k : ℕ) (st : VCState), k ≤ H * W →
      vcPartial H W imp p σ cb nsf gexp noise k = some st →
      (locs st.samples).Nodup := by
  intro k
  induction k with
  | zero =>
    intro st _ h
    rw [vcPartial_zero] at h
    injection h with h
    subst h
    simp [initState, locs]
  | succ k ih =>
    intro st hk h
    rw [vcPartial_succ] at h
    rcases Option.bind_eq_some.mp h with ⟨st', hst', hstep⟩
    have hnd := ih st' (by omega) hst'
    obtain ⟨hlen, hrange, htop, -, -⟩ :=
      vcPartial_spec H W imp p σ cb nsf gexp noise k st' hst'
    cases hsel : selectIndex H W nsf noise ((numPoints H W p).toNat) k st'.energy with
    | none =>
      rw [vcStep, hsel] at hstep
      cases hstep
    | some yx =>
      obtain ⟨y, x⟩ := yx
      rw [vcStep, hsel] at hstep
      injection hstep with hstep
      subst hstep
      have hnew : (y, x) ∉ locs st'.samples := by
        by_cases hi : k = 0
        · subst hi
          have hnil : st'.samples = [] := List.length_eq_zero.mp hlen
          simp [hnil, locs]
        · rw [selectIndex, if_neg hi] at hsel
          have hll : (locs st'.samples).length < H * W := by
            have := List.length_map st'.samples (fun t => (t.1, t.2.1))
            simp only [locs]
            omega
          obtain ⟨q, hqmem, hqnot⟩ := exists_unchosen hll
          have hqen : st'.energy q.1 q.2 ≠ ⊤ := by
            intro hh
            exact hqnot ((htop q.1 q.2).mp hh)
          have hqne :
              st'.energy q.1 q.2 +
                ((noise k q.1 q.2 * nsf *
                  (1 - (k : ℚ) / (((numPoints H W p).toNat : ℕ) : ℚ)) : ℚ) : WithTop ℚ) ≠ ⊤ := by
            intro hh
            rcases WithTop.add_eq_top.mp hh with h1 | h1
            · exact hqen h1
            · exact WithTop.coe_ne_top h1
          have hle := argminList_le hsel q hqmem
          have hyne := ne_top_of_le_ne_top hqne hle
          have hyen : st'.energy y x ≠ ⊤ := by
            intro hh
            apply hyne
            show st'.energy y x + _ = ⊤
            rw [hh, top_add]
          intro hmem
          exact hyen ((htop y x).mpr hmem)
      have hloc : locs (st'.samples ++ [(y, x, imp y x)]) = locs st'.samples ++ [(y, x)] := by
        simp [locs]
      show (locs _).Nodup
      rw [hloc]
      refine List.nodup_append.mpr ⟨hnd, List.nodup_singleton _, ?_⟩
      intro a ha hb
      rw [List.mem_singleton.mp hb] at ha
      exact hnew ha

theorem filter_stipple_length {H W : ℕ} {st : VCState}
    (hnd : (locs st.samples).Nodup)
    (hrange : ∀ q ∈ locs st.samples, q.1 < H ∧ q.2 < W)
    (hzero : ∀ q ∈ locs st.samples, st.stipple q.1 q.2 = 0)
    (hone : ∀ r c, (r, c) ∉ locs st.samples → st.stipple r c = 1) :
    ((allPairs H W).filter fun q => st.stipple q.1 q.2 = 0).length =
      (locs st.samples).length := by
  have hmem : ∀ q, q ∈ (allPairs H W).filter (fun q => st.stipple q.1 q.2 = 0) ↔
      q ∈ locs st.samples := by
    intro q
    rw [List.mem_filter]
    constructor
    · rintro ⟨hq1, hq2⟩
      by_contra hq3
      have ha := of_decide_eq_true hq2
      have hb := hone q.1 q.2 hq3
      rw [ha] at hb
      exact absurd hb (by norm_num)
    · intro hq
      exact ⟨mem_allPairs.mpr (hrange q hq), decide_eq_true (hzero q hq)⟩
  have h1 : ((allPairs H W).filter fun q => st.stipple q.1 q.2 = 0) ⊆ locs st.samples :=
    fun q hq => (hmem q).mp hq
  have h2 : locs st.samples ⊆ (allPairs H W).filter fun q => st.stipple q.1 q.2 = 0 :=
    fun q hq => (hmem q).mpr hq
  have hnd1 : ((allPairs H W).filter fun q => st.stipple q.1 q.2 = 0).Nodup :=
    (nodup_allPairs H W).filter _
  exact le_antisymm (List.subperm_of_subset hnd1 h1).length_le
    (List.subperm_of_subset hnd h2).length_le

/-! ### Facts about numPoints and degenerate inputs -/

theorem pyInt_eq_floor {q : ℚ} (hq : 0 ≤ q) : pyInt q = ⌊q⌋ := by
  rw [pyInt, Int.tdiv_eq_ediv (Rat.num_nonneg.mpr hq) (by positivity), Rat.floor_def]

theorem pyInt_nonpos {q : ℚ} (hq : q ≤ 0) : pyInt q ≤ 0 := by
  rw [pyInt]
  have h0 : q.num ≤ 0 := Rat.num_nonpos.mpr hq
  have h1 : (0 : ℤ) ≤ (-q.num).tdiv q.den :=
    Int.tdiv_nonneg (by omega) (by positivity)
  rw [Int.neg_tdiv] at h1
  omega

theorem numPoints_eq_floor {H W : ℕ} {p : ℚ} (hp : 0 ≤ p) :
    numPoints H W p = ⌊(H : ℚ) * (W : ℚ) * p⌋ := by
  rw [numPoints]
  exact pyInt_eq_floor (mul_nonneg (by positivity) hp)

theorem numPoints_toNat_eq_zero {H W : ℕ} {p : ℚ} (hp : p ≤ 0) :
    (numPoints H W p).toNat = 0 := by
  have hq : (H : ℚ) * (W : ℚ) * p ≤ 0 := mul_nonpos_of_nonneg_of_nonpos (by positivity) hp
  have hle : numPoints H W p ≤ 0 := pyInt_nonpos hq
  omega

theorem vc_nonpos_percentage (H W : ℕ) (imp : Grid ℚ) {p : ℚ} (σ cb nsf : ℚ)
    (gexp : ℚ → ℚ) (noise : ℕ → Grid ℚ) (hp : p ≤ 0) :
    void_and_cluster H W imp p σ cb nsf gexp noise = some (fun _ _ => 1, []) := by
  rw [void_and_cluster, numPoints_toNat_eq_zero hp]
  rfl

/-! ### Totality and failure of the first-point selection -/

theorem vcStep_zero_none {H W : ℕ} (imp : Grid ℚ) (nsf : ℚ) (noise : ℕ → Grid ℚ)
    (ks : ℕ) (K : Grid ℚ) (N : ℕ) (st : VCState) (hmin : min H W ≤ 3) :
    vcStep H W imp nsf noise ks K N 0 st = none := by
  rw [vcStep, selectIndex, if_pos rfl, windowPairs_eq_nil hmin]
  rfl

theorem vc_none_of_small (H W : ℕ) (imp : Grid ℚ) (p σ cb nsf : ℚ) (gexp : ℚ → ℚ)
    (noise : ℕ → Grid ℚ) (hmin : min H W ≤ 3) (hN : 1 ≤ numPoints H W p) :
    void_and_cluster H W imp p σ cb nsf gexp noise = none := by
  rw [void_and_cluster]
  obtain ⟨m, hm⟩ : ∃ m, (numPoints H W p).toNat = m + 1 :=
    ⟨(numPoints H W p).toNat - 1, by omega⟩
  rw [hm]
  simp only [vcPartial, List.range_succ_eq_map, List.foldl_cons, Option.some_bind,
    vcStep_zero_none imp nsf noise _ _ _ _ hmin]
  rw [foldl_bind_none]
  rfl

theorem vcPartial_isSome (H W : ℕ) (imp : Grid ℚ) (p σ cb nsf : ℚ) (gexp : ℚ → ℚ)
    (noise : ℕ → Grid ℚ) (hmin : 4 ≤ min H W) :
    ∀ k : ℕ, (vcPartial H W imp p σ cb nsf gexp noise k).isSome := by
  intro k
  induction k with
  | zero => rfl
  | succ k ih =>
    rw [vcPartial_succ]
    obtain ⟨st, hst⟩ := Option.isSome_iff_exists.mp ih
    rw [hst, Option.some_bind]
    cases hsel : selectIndex H W nsf noise ((numPoints H W p).toNat) k st.energy with
    | none =>
      exfalso
      by_cases hi : k = 0
      · rw [selectIndex, if_pos hi] at hsel
        have hne : windowPairs H W ≠ [] := by
          intro hnil
          have hc := center_mem_windowPairs hmin
          rw [hnil] at hc
          exact List.not_mem_nil _ hc
        have hs := argminList_isSome (g := st.energy) hne
        rw [hsel] at hs
        cases hs
      · rw [selectIndex, if_neg hi] at hsel
        have hne : allPairs H W ≠ [] := by
          intro hnil
          have hlen := length_allPairs H W
          rw [hnil] at hlen
          have hH : 4 ≤ H := le_trans hmin (min_le_left _ _)
          have hW : 4 ≤ W := le_trans hmin (min_le_right _ _)
          have hpos : 0 < H * W := Nat.mul_pos (by omega) (by omega)
          simp only [List.length_nil] at hlen
          omega
        have hs := argminList_isSome
          (g := fun r c => st.energy r c +
            ((noise k r c * nsf *
              (1 - (k : ℚ) / (((numPoints H W p).toNat : ℕ) : ℚ)) : ℚ) : WithTop ℚ)) hne
        rw [hsel] at hs
        cases hs
    | some yx =>
      obtain ⟨y, x⟩ := yx
      rw [vcStep, hsel]
      rfl

theorem vc_isSome_of_min (H W : ℕ) (imp : Grid ℚ) (p σ cb nsf : ℚ) (gexp : ℚ → ℚ)
    (noise : ℕ → Grid ℚ) (hmin : 4 ≤ min H W) :
    (void_and_cluster H W imp p σ cb nsf gexp noise).isSome := by
  rw [void_and_cluster]
  obtain ⟨st, hst⟩ := Option.isSome_iff_exists.mp
    (vcPartial_isSome H W imp p σ cb nsf gexp noise hmin ((numPoints H W p).toNat))
  rw [hst]
  rfl

/-! ### Independence from the noise stream when its scale factor is zero -/

theorem vcStep_nsf_zero (H W : ℕ) (imp : Grid ℚ) (noise₁ noise₂ : ℕ → Grid ℚ)
    (ks : ℕ) (K : Grid ℚ) (N i : ℕ) (st : VCState) :
    vcStep H W imp 0 noise₁ ks K N i st = vcStep H W imp 0 noise₂ ks K N i st := by
  have hsel : selectIndex H W 0 noise₁ N i st.energy =
      selectIndex H W 0 noise₂ N i st.energy := by
    rw [selectIndex, selectIndex]
    by_cases hi : i = 0
    · rw [if_pos hi, if_pos hi]
    · rw [if_neg hi, if_neg hi]
      congr 1
      funext r c
      rw [mul_zero, zero_mul, mul_zero, zero_mul]
  rw [vcStep, vcStep, hsel]

theorem vcPartial_nsf_zero (H W : ℕ) (imp : Grid ℚ) (p σ cb : ℚ) (gexp : ℚ → ℚ)
    (noise₁ noise₂ : ℕ → Grid ℚ) (k : ℕ) :
    vcPartial H W imp p σ cb 0 gexp noise₁ k = vcPartial H W imp p σ cb 0 gexp noise₂ k := by
  induction k with
  | zero => rfl
  | succ k ih =>
    rw [vcPartial_succ, vcPartial_succ, ih]
    congr 1
    funext st
    exact vcStep_nsf_zero H W imp noise₁ noise₂ _ _ _ k st

/-! ### Evaluation of the kernel side length -/

theorem repulsionKernelSize_eq (σ : ℚ) (gexp : ℚ → ℚ) :
    repulsionKernelSize σ gexp =
      if kernelSizeInit σ % 2 = 0 then kernelSizeInit σ + 1 else kernelSizeInit σ := rfl

theorem kernelSizeInit_pos_eq {σ : ℚ} (hσ : 0 < σ) :
    kernelSizeInit σ =
      if (⌊6 * σ⌋ + 1) % 2 = 0 then ⌊6 * σ⌋ + 1 + 1 else ⌊6 * σ⌋ + 1 := by
  rw [kernelSizeInit, pyInt_eq_floor (le_of_lt (by positivity : (0 : ℚ) < 6 * σ))]

/-! ### The claim theorems -/

/-- C9: the kernel accumulation step of void_and_cluster adds, for every
kernel cell, the kernel value to the energy cell at row
(center_row + row_offset) mod H and column (center_col + col_offset) mod W,
the offsets being measured from the kernel center; consequently each energy
cell changes by exactly the sum of the kernel values that map to it under
this toroidal wraparound. -/
theorem accumulate_toroidal_sum (H W : ℕ) (energy : Grid (WithTop ℚ)) (y x ksize : ℕ)
    (K : Grid ℚ) (r c : ℕ) :
    accumulate H W energy y x ksize K r c =
      energy r c + (((((allPairs ksize ksize).filter
          fun q => (((((y : ℤ) + ((q.1 : ℤ) - (ksize / 2 : ℕ))) % (H : ℤ)).toNat,
            (((x : ℤ) + ((q.2 : ℤ) - (ksize / 2 : ℕ))) % (W : ℤ)).toNat) : ℕ × ℕ) = (r, c)).map
          fun q => K q.1 q.2).sum : ℚ) : WithTop ℚ) :=
  accumulate_apply H W energy y x ksize K r c

/-- C7: throughout the placement loop of void_and_cluster, the cells of the
persisted energy grid holding the infinity sentinel are exactly the
locations already chosen as samples; chosen cells are made infinite
immediately after selection and finite kernel accumulation never makes an
unchosen cell infinite. -/
theorem energy_top_iff_chosen (H W : ℕ) (imp : Grid ℚ) (p σ cb nsf : ℚ)
    (gexp : ℚ → ℚ) (noise : ℕ → Grid ℚ) (k : ℕ) (st : VCState)
    (h : vcPartial H W imp p σ cb nsf gexp noise k = some st) (r c : ℕ) :
    st.energy r c = ⊤ ↔ (r, c) ∈ locs st.samples :=
  (vcPartial_spec H W imp p σ cb nsf gexp noise k st h).2.2.1 r c

/-- C3: two invocations of void_and_cluster with identical importance grid,
identical percentage, sigma, content_bias, noise_scale_factor and identical
seed (the seed fully determines the noise stream) produce identical stipple
grids and identical sample sequences. -/
theorem void_and_cluster_deterministic (H W : ℕ) (imp₁ imp₂ : Grid ℚ)
    (p₁ p₂ σ₁ σ₂ cb₁ cb₂ nsf₁ nsf₂ : ℚ) (gexp : ℚ → ℚ) (s₁ s₂ : ℕ)
    (h1 : imp₁ = imp₂) (h2 : p₁ = p₂) (h3 : σ₁ = σ₂) (h4 : cb₁ = cb₂)
    (h5 : nsf₁ = nsf₂) (h6 : s₁ = s₂) :
    void_and_cluster H W imp₁ p₁ σ₁ cb₁ nsf₁ gexp (noiseFromSeed s₁) =
      void_and_cluster H W imp₂ p₂ σ₂ cb₂ nsf₂ gexp (noiseFromSeed s₂) := by
  rw [h1, h2, h3, h4, h5, h6]

/-- C6: when noise_scale_factor is 0, the output of void_and_cluster does
not depend on the seed: runs with arbitrary (in particular different) seeds
and otherwise identical inputs coincide exactly. -/
theorem noise_scale_zero_seed_independent (H W : ℕ) (imp : Grid ℚ) (p σ cb : ℚ)
    (gexp : ℚ → ℚ) (s₁ s₂ : ℕ) :
    void_and_cluster H W imp p σ cb 0 gexp (noiseFromSeed s₁) =
      void_and_cluster H W imp p σ cb 0 gexp (noiseFromSeed s₂) := by
  rw [void_and_cluster, void_and_cluster,
    vcPartial_nsf_zero H W imp p σ cb gexp (noiseFromSeed s₁) (noiseFromSeed s₂)]

/-- C5 as stated is false: at sigma = 3/4 the code builds a kernel of side
5, while the smallest odd integer at least 6*(3/4)+1 = 5.5 is 7. -/
theorem repulsion_kernel_size_counterexample :
    ¬ IsLeastOddGE (6 * (3 / 4 : ℚ) + 1) (repulsionKernelSize (3 / 4) (fun _ => 1)) := by
  intro h
  have hki : kernelSizeInit (3 / 4 : ℚ) = 5 := by
    rw [kernelSizeInit_pos_eq (by norm_num)]
    have h4 : ⌊(6 * (3 / 4 : ℚ))⌋ = 4 := by norm_num
    rw [h4]
    decide
  rw [repulsionKernelSize_eq, hki] at h
  have h5 : (if (5 : ℤ) % 2 = 0 then (5 : ℤ) + 1 else 5) = 5 := by decide
  rw [h5] at h
  have hle := h.2.1
  norm_num at hle

/-- C5 amended: for every sigma > 0 the repulsion kernel built by
void_and_cluster is square with side length the smallest odd integer at
least ⌊6σ⌋ + 1 (the code truncates 6σ before adding 1); this agrees with
the claimed bound 6σ + 1 exactly when 6σ is an integer. -/
theorem repulsion_kernel_size_amended (σ : ℚ) (gexp : ℚ → ℚ) (hσ : 0 < σ) :
    IsLeastOddGE ((⌊6 * σ⌋ + 1 : ℤ) : ℚ) (repulsionKernelSize σ gexp) := by
  rw [repulsionKernelSize_eq, kernelSizeInit_pos_eq hσ]
  by_cases hb : (⌊6 * σ⌋ + 1) % 2 = 0
  · rw [if_pos hb]
    have hodd : (⌊6 * σ⌋ + 1 + 1) % 2 = 1 := by omega
    rw [if_neg (by omega)]
    refine ⟨Int.odd_iff.mpr hodd, ?_, ?_⟩
    · exact_mod_cast (by omega : ⌊6 * σ⌋ + 1 ≤ ⌊6 * σ⌋ + 1 + 1)
    · intro m hm hle
      have hm2 := Int.odd_iff.mp hm
      have : ⌊6 * σ⌋ + 1 ≤ m := by exact_mod_cast hle
      omega
  · rw [if_neg hb]
    have hodd : (⌊6 * σ⌋ + 1) % 2 = 1 := by omega
    rw [if_neg (by omega)]
    refine ⟨Int.odd_iff.mpr hodd, le_refl _, ?_⟩
    · intro m hm hle
      exact_mod_cast hle

/-- C1 as stated is false for negative percentages: on a 4×4 grid with
percentage -1 the code returns zero samples (and the all-background grid),
while floor(H * W * percentage) is -16, not 0. -/
theorem void_and_cluster_length_counterexample :
    void_and_cluster 4 4 (fun _ _ => 1) (-1) (9 / 10) (9 / 10) 0 (fun _ => 1)
        (fun _ _ _ => 0) = some (fun _ _ => 1, []) ∧
      ((([] : List (ℕ × ℕ × ℚ)).length : ℤ) ≠ ⌊(4 : ℚ) * (4 : ℚ) * (-1)⌋) := by
  constructor
  · exact vc_nonpos_percentage 4 4 (fun _ _ => 1) (9 / 10) (9 / 10) 0 (fun _ => 1)
      (fun _ _ _ => 0) (by norm_num)
  · rw [show ((4 : ℚ) * (4 : ℚ) * (-1)) = ((-16 : ℤ) : ℚ) by norm_num, Int.floor_intCast]
    decide

/-- C1 amended: whenever void_and_cluster returns and the percentage is
nonnegative, the sample sequence has length exactly
floor(H * W * percentage); and for every percentage ≤ 0 it returns zero
samples together with a stipple grid whose every cell is background (1.0).
The original claim fails only because floor of a negative product is
negative while the returned length is 0. -/
theorem void_and_cluster_length (H W : ℕ) (imp : Grid ℚ) (p σ cb nsf : ℚ)
    (gexp : ℚ → ℚ) (noise : ℕ → Grid ℚ) :
    (0 ≤ p → ∀ (g : Grid ℚ) (samples : List (ℕ × ℕ × ℚ)),
        void_and_cluster H W imp p σ cb nsf gexp noise = some (g, samples) →
        (samples.length : ℤ) = ⌊(H : ℚ) * (W : ℚ) * p⌋) ∧
    (p ≤ 0 →
        void_and_cluster H W imp p σ cb nsf gexp noise = some (fun _ _ => 1, [])) := by
  constructor
  · intro hp g samples h
    rw [void_and_cluster] at h
    rcases Option.map_eq_some'.mp h with ⟨st, hst, hpr⟩
    injection hpr with h1 h2
    obtain ⟨hlen, -, -, -, -⟩ :=
      vcPartial_spec H W imp p σ cb nsf gexp noise ((numPoints H W p).toNat) st hst
    have hfl : 0 ≤ ⌊(H : ℚ) * (W : ℚ) * p⌋ :=
      Int.floor_nonneg.mpr (mul_nonneg (by positivity) hp)
    have hnum : numPoints H W p = ⌊(H : ℚ) * (W : ℚ) * p⌋ := numPoints_eq_floor hp
    rw [← h2, hlen, hnum, Int.toNat_of_nonneg (hnum ▸ hfl)]
  · exact vc_nonpos_percentage H W imp σ cb nsf gexp noise

/-- C2: for valid inputs (percentage in (0, 1]), whenever void_and_cluster
returns, the sample locations are pairwise distinct and the stipple grid
holds the mark value 0.0 at exactly len(sample_sequence) cells, every other
cell holding the background value 1.0. -/
theorem void_and_cluster_distinct_counts (H W : ℕ) (imp : Grid ℚ) (p σ cb nsf : ℚ)
    (gexp : ℚ → ℚ) (noise : ℕ → Grid ℚ) (hp0 : 0 < p) (hp1 : p ≤ 1)
    (g : Grid ℚ) (samples : List (ℕ × ℕ × ℚ))
    (h : void_and_cluster H W imp p σ cb nsf gexp noise = some (g, samples)) :
    (locs samples).Nodup ∧
    ((allPairs H W).filter fun q => g q.1 q.2 = 0).length = samples.length ∧
    ∀ q ∈ allPairs H W, g q.1 q.2 ≠ 0 → g q.1 q.2 = 1 := by
  rw [void_and_cluster] at h
  rcases Option.map_eq_some'.mp h with ⟨st, hst, hpr⟩
  injection hpr with h1 h2
  subst h1
  subst h2
  have hNle : (numPoints H W p).toNat ≤ H * W := by
    have hq : (H : ℚ) * (W : ℚ) * p ≤ (H : ℚ) * (W : ℚ) := by
      calc (H : ℚ) * (W : ℚ) * p ≤ (H : ℚ) * (W : ℚ) * 1 :=
            mul_le_mul_of_nonneg_left hp1 (by positivity)
        _ = (H : ℚ) * (W : ℚ) := mul_one _
    have hle : numPoints H W p ≤ ((H * W : ℕ) : ℤ) := by
      rw [numPoints_eq_floor (le_of_lt hp0)]
      calc ⌊(H : ℚ) * (W : ℚ) * p⌋ ≤ ⌊((H * W : ℕ) : ℚ)⌋ :=
            Int.floor_le_floor (by push_cast; exact hq)
        _ = ((H * W : ℕ) : ℤ) := Int.floor_natCast _
    omega
  have hnd := vcPartial_nodup H W imp p σ cb nsf gexp noise
    ((numPoints H W p).toNat) st hNle hst
  obtain ⟨hlen, hrange, htop, hzero, hone⟩ :=
    vcPartial_spec H W imp p σ cb nsf gexp noise ((numPoints H W p).toNat) st hst
  refine ⟨hnd, ?_, ?_⟩
  · rw [filter_stipple_length hnd hrange hzero hone]
    simp [locs]
  · intro q hq hne
    by_cases hmem : q ∈ locs st.samples
    · exact absurd (hzero q hmem) hne
    · exact hone q.1 q.2 hmem

/-- C4: the claim describes the intended error handling, but the code has
no sigma validation at all: for every sigma ≤ 0 (and any grid at least 4×4
so that the first-point window is nonempty), void_and_cluster builds the
kernel and runs the loop to completion instead of rejecting the input. -/
theorem sigma_nonpos_not_rejected (H W : ℕ) (imp : Grid ℚ) (p cb nsf σ : ℚ)
    (gexp : ℚ → ℚ) (noise : ℕ → Grid ℚ) (hσ : σ ≤ 0) (hmin : 4 ≤ min H W) :
    (void_and_cluster H W imp p σ cb nsf gexp noise).isSome :=
  vc_isSome_of_min H W imp p σ cb nsf gexp noise hmin

/-- C10: when min(H, W) ≤ 3 and at least one point is requested, the
first-point search radius min(H, W) / 4 is 0, the centered search window is
empty and the first-point minimum selection fails, so void_and_cluster
produces no result; when min(H, W) ≥ 4 the whole loop is total. -/
theorem first_point_window_totality (H W : ℕ) (imp : Grid ℚ) (p σ cb nsf : ℚ)
    (gexp : ℚ → ℚ) (noise : ℕ → Grid ℚ) :
    (min H W ≤ 3 → 1 ≤ numPoints H W p →
        void_and_cluster H W imp p σ cb nsf gexp noise = none) ∧
    (4 ≤ min H W → (void_and_cluster H W imp p σ cb nsf gexp noise).isSome) :=
  ⟨vc_none_of_small H W imp p σ cb nsf gexp noise,
    vc_isSome_of_min H W imp p σ cb nsf gexp noise⟩

/-! ### Grid extrema -/

theorem foldlMin_le_init (g : Grid ℚ) :
    ∀ (ps : List (ℕ × ℕ)) (a : ℚ), ps.foldl (fun m q => min m (g q.1 q.2)) a ≤ a := by
  intro ps
  induction ps with
  | nil => intro a; exact le_rfl
  | cons b l ih => intro a; exact le_trans (ih _) (min_le_left _ _)

theorem foldlMin_le_mem (g : Grid ℚ) :
    ∀ (ps : List (ℕ × ℕ)) (a : ℚ) (q : ℕ × ℕ), q ∈ ps →
      ps.foldl (fun m q => min m (g q.1 q.2)) a ≤ g q.1 q.2 := by
  intro ps
  induction ps with
  | nil => intro a q hq; exact absurd hq (List.not_mem_nil _)
  | cons b l ih =>
    intro a q hq
    rcases List.mem_cons.mp hq with h1 | h1
    · subst h1
      exact le_trans (foldlMin_le_init g l _) (min_le_right _ _)
    · exact ih _ q h1

theorem foldlMax_init_le (g : Grid ℚ) :
    ∀ (ps : List (ℕ × ℕ)) (a : ℚ), a ≤ ps.foldl (fun m q => max m (g q.1 q.2)) a := by
  intro ps
  induction ps with
  | nil => intro a; exact le_rfl
  | cons b l ih => intro a; exact le_trans (le_max_left _ _) (ih _)

theorem foldlMax_mem_le (g : Grid ℚ) :
    ∀ (ps : List (ℕ × ℕ)) (a : ℚ) (q : ℕ × ℕ), q ∈ ps →
      g q.1 q.2 ≤ ps.foldl (fun m q => max m (g q.1 q.2)) a := by
  intro ps
  induction ps with
  | nil => intro a q hq; exact absurd hq (List.not_mem_nil _)
  | cons b l ih =>
    intro a q hq
    rcases List.mem_cons.mp hq with h1 | h1
    · subst h1
      exact le_trans (le_max_right _ _) (foldlMax_init_le g l _)
    · exact ih _ q h1

theorem gridMin_le {H W : ℕ} (g : Grid ℚ) {q : ℕ × ℕ} (hq : q ∈ allPairs H W) :
    gridMin H W g ≤ g q.1 q.2 := by
  cases hAP : allPairs H W with
  | nil => rw [hAP] at hq; exact absurd hq (List.not_mem_nil _)
  | cons a l =>
    rw [hAP] at hq
    simp only [gridMin, hAP]
    rcases List.mem_cons.mp hq with h1 | h1
    · subst h1
      exact foldlMin_le_init g l _
    · exact foldlMin_le_mem g l _ q h1

theorem le_gridMax {H W : ℕ} (g : Grid ℚ) {q : ℕ × ℕ} (hq : q ∈ allPairs H W) :
    g q.1 q.2 ≤ gridMax H W g := by
  cases hAP : allPairs H W with
  | nil => rw [hAP] at hq; exact absurd hq (List.not_mem_nil _)
  | cons a l =>
    rw [hAP] at hq
    simp only [gridMax, hAP]
    rcases List.mem_cons.mp hq with h1 | h1
    · subst h1
      exact foldlMax_init_le g l _
    · exact foldlMax_mem_le g l _ q h1

theorem foldlMin_const (g : Grid ℚ) (v : ℚ) :
    ∀ ps : List (ℕ × ℕ), (∀ q ∈ ps, g q.1 q.2 = v) →
      ps.foldl (fun m q => min m (g q.1 q.2)) v = v := by
  intro ps
  induction ps with
  | nil => intro _; rfl
  | cons b l ih =>
    intro h
    simp only [List.foldl_cons]
    rw [h b (List.mem_cons_self _ _), min_self]
    exact ih fun q hq => h q (List.mem_cons_of_mem _ hq)

theorem foldlMax_const (g : Grid ℚ) (v : ℚ) :
    ∀ ps : List (ℕ × ℕ), (∀ q ∈ ps, g q.1 q.2 = v) →
      ps.foldl (fun m q => max m (g q.1 q.2)) v = v := by
  intro ps
  induction ps with
  | nil => intro _; rfl
  | cons b l ih =>
    intro h
    simp only [List.foldl_cons]
    rw [h b (List.mem_cons_self _ _), max_self]
    exact ih fun q hq => h q (List.mem_cons_of_mem _ hq)

theorem gridMin_eq_gridMax_of_const {H W : ℕ} (g : Grid ℚ) (v : ℚ)
    (h : ∀ q ∈ allPairs H W, g q.1 q.2 = v) :
    gridMin H W g = gridMax H W g := by
  cases hAP : allPairs H W with
  | nil => simp [gridMin, gridMax, hAP]
  | cons a l =>
    have hv : g a.1 a.2 = v := h a (hAP ▸ List.mem_cons_self _ _)
    have hl : ∀ q ∈ l, g q.1 q.2 = v := fun q hq =>
      h q (hAP ▸ List.mem_cons_of_mem _ hq)
    simp only [gridMin, gridMax, hAP, hv]
    rw [foldlMin_const g v l hl, foldlMax_const g v l hl]

/-- C8: for every nonempty input grid with values in [0, 1], every value of
the grid returned by compute_importance at a meaningful index lies in
[0, 1]; whenever the pre-normalization importance has zero dynamic range
(minimum equals maximum) the output is the uniform grid of exactly 1.0, and
in particular a uniform input grid yields the uniform grid of exactly
1.0. -/
theorem compute_importance_range (H W : ℕ) (gexp : ℚ → ℚ) (image : Grid ℚ)
    (edw dth lth dsg lsg mtc mts mtb : ℚ) (hH : 0 < H) (hW : 0 < W)
    (hin : ∀ r, r < H → ∀ c, c < W → 0 ≤ image r c ∧ image r c ≤ 1) :
    (∀ r, r < H → ∀ c, c < W →
        0 ≤ compute_importance H W gexp image edw dth lth dsg lsg mtc mts mtb r c ∧
        compute_importance H W gexp image edw dth lth dsg lsg mtc mts mtb r c ≤ 1) ∧
    (gridMin H W (preGrid gexp image edw dth lth dsg lsg mtc mts mtb) =
        gridMax H W (preGrid gexp image edw dth lth dsg lsg mtc mts mtb) →
      ∀ r c, compute_importance H W gexp image edw dth lth dsg lsg mtc mts mtb r c = 1) ∧
    ((∀ r, r < H → ∀ c, c < W → image r c = image 0 0) →
      ∀ r c, compute_importance H W gexp image edw dth lth dsg lsg mtc mts mtb r c = 1) := by
  set pre : Grid ℚ := preGrid gexp image edw dth lth dsg lsg mtc mts mtb with hpre
  refine ⟨?_, ?_, ?_⟩
  · intro r hr c hc
    have hq : ((r, c) : ℕ × ℕ) ∈ allPairs H W := mem_allPairs.mpr ⟨hr, hc⟩
    have hlo : gridMin H W pre ≤ pre r c := gridMin_le pre hq
    have hhi : pre r c ≤ gridMax H W pre := le_gridMax pre hq
    rw [compute_importance]
    simp only [← hpre]
    by_cases hlt : gridMin H W pre < gridMax H W pre
    · rw [if_pos hlt]
      constructor
      · apply div_nonneg (by linarith) (by linarith)
      · rw [div_le_one (by linarith)]
        linarith
    · rw [if_neg hlt]
      norm_num
  · intro heq r c
    rw [compute_importance]
    simp only [← hpre]
    rw [if_neg (by rw [heq]; exact lt_irrefl _)]
  · intro hU r c
    have hconst : ∀ q ∈ allPairs H W, pre q.1 q.2 =
        preImportance gexp edw dth lth dsg lsg mtc mts mtb (image 0 0) := by
      intro q hq
      obtain ⟨h1, h2⟩ := mem_allPairs.mp hq
      rw [hpre, preGrid, hU q.1 h1 q.2 h2]
    have heq := gridMin_eq_gridMax_of_const pre _ hconst
    rw [compute_importance]
    simp only [← hpre]
    rw [if_neg (by rw [heq]; exact lt_irrefl _)]

/-! ### Witnesses: the claim theorems applied at concrete inputs -/

theorem void_and_cluster_length_witness :
    ((((void_and_cluster 4 4 (fun _ _ => 1) (1 / 16) (9 / 10) (9 / 10) 0 (fun _ => 1)
        (fun _ _ _ => 0)).getD (fun _ _ => 0, [])).2.length : ℤ) =
      ⌊(4 : ℚ) * (4 : ℚ) * (1 / 16)⌋) ∧
    void_and_cluster 4 4 (fun _ _ => 1) 0 (9 / 10) (9 / 10) 0 (fun _ => 1)
        (fun _ _ _ => 0) = some (fun _ _ => 1, []) :=
  ⟨(void_and_cluster_length 4 4 (fun _ _ => 1) (1 / 16) (9 / 10) (9 / 10) 0 (fun _ => 1)
      (fun _ _ _ => 0)).1 (by norm_num)
      ((void_and_cluster 4 4 (fun _ _ => 1) (1 / 16) (9 / 10) (9 / 10) 0 (fun _ => 1)
        (fun _ _ _ => 0)).getD (fun _ _ => 0, [])).1
      ((void_and_cluster 4 4 (fun _ _ => 1) (1 / 16) (9 / 10) (9 / 10) 0 (fun _ => 1)
        (fun _ _ _ => 0)).getD (fun _ _ => 0, [])).2
      (by
        have h1 : (numPoints 4 4 (1 / 16)).toNat = 1 := by
          rw [numPoints_eq_floor (by norm_num)]
          norm_num
        rw [void_and_cluster, h1]
        rfl),
    (void_and_cluster_length 4 4 (fun _ _ => 1) 0 (9 / 10) (9 / 10) 0 (fun _ => 1)
      (fun _ _ _ => 0)).2 le_rfl⟩

theorem void_and_cluster_distinct_counts_witness :
    (locs ((void_and_cluster 4 4 (fun _ _ => 1) (1 / 16) (9 / 10) (9 / 10) 0 (fun _ => 1)
        (fun _ _ _ => 0)).getD (fun _ _ => 0, [])).2).Nodup ∧
    ((allPairs 4 4).filter fun q =>
        ((void_and_cluster 4 4 (fun _ _ => 1) (1 / 16) (9 / 10) (9 / 10) 0 (fun _ => 1)
          (fun _ _ _ => 0)).getD (fun _ _ => 0, [])).1 q.1 q.2 = 0).length =
      ((void_and_cluster 4 4 (fun _ _ => 1) (1 / 16) (9 / 10) (9 / 10) 0 (fun _ => 1)
        (fun _ _ _ => 0)).getD (fun _ _ => 0, [])).2.length ∧
    ∀ q ∈ allPairs 4 4,
      ((void_and_cluster 4 4 (fun _ _ => 1) (1 / 16) (9 / 10) (9 / 10) 0 (fun _ => 1)
        (fun _ _ _ => 0)).getD (fun _ _ => 0, [])).1 q.1 q.2 ≠ 0 →
      ((void_and_cluster 4 4 (fun _ _ => 1) (1 / 16) (9 / 10) (9 / 10) 0 (fun _ => 1)
        (fun _ _ _ => 0)).getD (fun _ _ => 0, [])).1 q.1 q.2 = 1 :=
  void_and_cluster_distinct_counts 4 4 (fun _ _ => 1) (1 / 16) (9 / 10) (9 / 10) 0
    (fun _ => 1) (fun _ _ _ => 0) (by norm_num) (by norm_num) _ _
    (by
      have h1 : (numPoints 4 4 (1 / 16)).toNat = 1 := by
        rw [numPoints_eq_floor (by norm_num)]
        norm_num
      rw [void_and_cluster, h1]
      rfl)

theorem void_and_cluster_deterministic_witness :
    void_and_cluster 4 4 (fun _ _ => 1) (1 / 16) (9 / 10) (9 / 10) (1 / 10) (fun _ => 1)
        (noiseFromSeed 7) =
      void_and_cluster 4 4 (fun _ _ => 1) (1 / 16) (9 / 10) (9 / 10) (1 / 10) (fun _ => 1)
        (noiseFromSeed 7) :=
  void_and_cluster_deterministic 4 4 (fun _ _ => 1) (fun _ _ => 1) (1 / 16) (1 / 16)
    (9 / 10) (9 / 10) (9 / 10) (9 / 10) (1 / 10) (1 / 10) (fun _ => 1) 7 7
    rfl rfl rfl rfl rfl rfl

theorem sigma_nonpos_not_rejected_witness :
    (void_and_cluster 4 4 (fun _ _ => 1) (1 / 4) 0 (9 / 10) 0 (fun _ => 1)
        (fun _ _ _ => 0)).isSome :=
  sigma_nonpos_not_rejected 4 4 (fun _ _ => 1) (1 / 4) (9 / 10) 0 0 (fun _ => 1)
    (fun _ _ _ => 0) le_rfl (by decide)

theorem repulsion_kernel_size_amended_witness :
    IsLeastOddGE ((⌊6 * (1 : ℚ)⌋ + 1 : ℤ) : ℚ) (repulsionKernelSize 1 (fun _ => 1)) :=
  repulsion_kernel_size_amended 1 (fun _ => 1) (by norm_num)

theorem energy_top_iff_chosen_witness :
    (((vcPartial 4 4 (fun _ _ => 1) (1 / 16) (9 / 10) (9 / 10) 0 (fun _ => 1)
        (fun _ _ _ => 0) 1).getD (initState (fun _ _ => 1) (9 / 10))).energy 2 2 = ⊤) ↔
      ((2, 2) ∈ locs ((vcPartial 4 4 (fun _ _ => 1) (1 / 16) (9 / 10) (9 / 10) 0
        (fun _ => 1) (fun _ _ _ => 0) 1).getD (initState (fun _ _ => 1) (9 / 10))).samples) :=
  energy_top_iff_chosen 4 4 (fun _ _ => 1) (1 / 16) (9 / 10) (9 / 10) 0 (fun _ => 1)
    (fun _ _ _ => 0) 1 _ (by rfl) 2 2

theorem compute_importance_range_witness :
    (∀ r, r < 1 → ∀ c, c < 1 →
        0 ≤ compute_importance 1 1 (fun _ => 1) (fun _ _ => 1 / 2) (3 / 10) (1 / 5)
            (4 / 5) (3 / 20) (3 / 20) (13 / 20) (1 / 5) (3 / 2) r c ∧
        compute_importance 1 1 (fun _ => 1) (fun _ _ => 1 / 2) (3 / 10) (1 / 5)
            (4 / 5) (3 / 20) (3 / 20) (13 / 20) (1 / 5) (3 / 2) r c ≤ 1) ∧
    (gridMin 1 1 (preGrid (fun _ => 1) (fun _ _ => 1 / 2) (3 / 10) (1 / 5) (4 / 5)
          (3 / 20) (3 / 20) (13 / 20) (1 / 5) (3 / 2)) =
        gridMax 1 1 (preGrid (fun _ => 1) (fun _ _ => 1 / 2) (3 / 10) (1 / 5) (4 / 5)
          (3 / 20) (3 / 20) (13 / 20) (1 / 5) (3 / 2)) →
      ∀ r c, compute_importance 1 1 (fun _ => 1) (fun _ _ => 1 / 2) (3 / 10) (1 / 5)
          (4 / 5) (3 / 20) (3 / 20) (13 / 20) (1 / 5) (3 / 2) r c = 1) ∧
    ((∀ r, r < 1 → ∀ c, c < 1 → (fun _ _ => (1 / 2 : ℚ)) r c = (fun _ _ => (1 / 2 : ℚ)) 0 0) →
      ∀ r c, compute_importance 1 1 (fun _ => 1) (fun _ _ => 1 / 2) (3 / 10) (1 / 5)
          (4 / 5) (3 / 20) (3 / 20) (13 / 20) (1 / 5) (3 / 2) r c = 1) :=
  compute_importance_range 1 1 (fun _ => 1) (fun _ _ => 1 / 2) (3 / 10) (1 / 5) (4 / 5)
    (3 / 20) (3 / 20) (13 / 20) (1 / 5) (3 / 2) (by decide) (by decide)
    (fun r _ c _ => by norm_num)

theorem first_point_window_totality_witness :
    void_and_cluster 2 2 (fun _ _ => 1) 1 (9 / 10) (9 / 10) 0 (fun _ => 1)
        (fun _ _ _ => 0) = none ∧
    (void_and_cluster 4 4 (fun _ _ => 1) 1 (9 / 10) (9 / 10) 0 (fun _ => 1)
        (fun _ _ _ => 0)).isSome :=
  ⟨(first_point_window_totality 2 2 (fun _ _ => 1) 1 (9 / 10) (9 / 10) 0 (fun _ => 1)
      (fun _ _ _ => 0)).1 (by decide)
      (by rw [show numPoints 2 2 1 = 4 from by
            rw [numPoints_eq_floor (by norm_num)]
            rw [show ((2 : ℕ) : ℚ) * ((2 : ℕ) : ℚ) * 1 = ((4 : ℤ) : ℚ) by norm_num,
              Int.floor_intCast]]
          decide),
    (first_point_window_totality 4 4 (fun _ _ => 1) 1 (9 / 10) (9 / 10) 0 (fun _ => 1)
      (fun _ _ _ => 0)).2 (by decide)⟩

end Stipple
